import Mathlib

set_option maxRecDepth 8000

/-!
# Verification of the IDAES homotopy continuation meta-solver

The repository's reusable core is `idaes.core.util.homotopy.homotopy`, an
adaptive continuation driver that walks a set of fixed input variables of a
nonlinear model from their current values to target values, re-solving the
model at each intermediate point, cutting the step on failure and
accelerating it on success.

The driver's own source file is not part of this corpus; only its test
suite (`idaes/core/util/tests/test_homotopy.py`) is.  The definitions below
are therefore modelled from the specification's algorithm (§4.1), with the
points the spec leaves open (exact default acceleration, the behaviour when
a step cut falls below `min_step`, the state restored after a failed solve)
pinned down by the exact evaluation counts and progress values asserted by
the test suite, which is authoritative source code of the repository.

All arithmetic is exact (`ℚ`): the Python driver works on floats, but every
quantity the tests assert exactly (progress values such as 0.35 or 0.7125,
step sizes, interpolated variable values) is produced by sums and products
of decimal fractions that are exact in binary floating point as well, so
the rational model agrees with the float computation on all runs considered
here.
-/

/-- Termination condition reported by the external solver for one solve, and
by the driver for the whole continuation run (spec §4.1: optimal /
infeasible / minStepLength / maxEvaluations; `other` stands for any further
solver outcome such as an iteration limit, which the driver treats like any
non-optimal result). -/
inductive TermCond where
  | optimal
  | infeasible
  | minStepLength
  | maxEvaluations
  | other
deriving DecidableEq

/-- Modelled from the spec: the configuration options of the homotopy driver
(§4.1 option table) that the control loop consults.  `iter_target` and
`max_solver_iterations` only parameterize the external solver's acceleration
report and per-call iteration cap; for the models considered here the
solver's iteration count is constant, so they are absorbed into the
effective `step_accel` (see `hloop`). -/
structure HParams where
  step_init : ℚ
  step_cut : ℚ
  step_accel : ℚ
  max_step : ℚ
  min_step : ℚ
  max_eval : ℕ
deriving DecidableEq

/-- Modelled from the spec: default configuration.  `step_init = 0.1`,
`step_cut = 0.5`, `max_step = 1` are given in the spec's table; the spec
leaves the default `step_accel` open ("0.0 (varies)") and `min_step` as
"small positive".  The test suite pins them: the default run of the
quadratic scenario takes exactly 4 evaluations and reaches progress 0.35
after two, which forces an effective per-acceptance growth factor of
exactly 5/2, i.e. `step_accel = 3/2`; the constrained scenario terminates
at progress exactly 0.7125 = 0.6625 + 0.05, which forces
`min_step = 0.05`.  `max_eval` only needs to be large (no cited test hits
the default budget); 200 is used. -/
def defParams : HParams := ⟨1/10, 1/2, 3/2, 1, 1/20, 200⟩

/-- The external modeling/solver collaborator (spec §6): an opaque model
state `σ`, an operation fixing the homotopy variables to given values, a
solve operation returning a termination condition and the post-solve model
state, and an observer returning the current fixed values of the homotopy
variables. -/
structure Solver (σ : Type) where
  fix : σ → List ℚ → σ
  solve : σ → TermCond × σ
  vals : σ → List ℚ

/-- Linear interpolation of the homotopy variables (spec §4.1 step 4b):
at progress `p` each variable is fixed to `start + p * (target - start)`. -/
def interp (v0 vt : List ℚ) (p : ℚ) : List ℚ :=
  List.zipWith (fun a b => a + p * (b - a)) v0 vt

/-- Result of a driver invocation: the returned triple
`(termination_condition, progress, n_evaluations)`, the final model state,
and a ghost trace recording `(prog, step)` at the entry of every
continuation-loop iteration (one entry per solve attempt of the loop). -/
structure HResult (σ : Type) where
  tc : TermCond
  prog : ℚ
  n_eval : ℕ
  model : σ
  trace : List (ℚ × ℚ)
deriving DecidableEq

/-- Modelled from the spec: the continuation loop (§4.1 step 4-5).  Each
iteration clamps the candidate progress to 1, fixes the homotopy variables
at the interpolated point, and solves.  On an optimal solve the step is
accepted and the step size grown by `(1 + step_accel)` up to `max_step`;
on any other outcome the model is restored to the snapshot of the last
accepted solve (the spec's step 4e revert: "the model already holds those
converged values from the prior accepted iteration") and the step is cut.
Two points pinned by the authoritative tests rather than the spec's literal
step 4e: a failed solve at `step ≤ min_step` terminates with
`minStepLength`, while a cut that would fall below `min_step` is clipped to
exactly `min_step` and one more attempt is made (`test_basic_step_cut` vs
`test_basic_step_cut_2`: 6 vs 7 evaluations).  The fuel argument is the
remaining evaluation budget; the driver passes `max_eval`, and the inner
budget check fires first whenever `max_eval > 0`. -/
def hloopF {σ : Type} (P : HParams) (S : Solver σ) (v0 vt : List ℚ)
    (rest : ℚ → ℚ → ℕ → σ → HResult σ) (prog s : ℚ) (n : ℕ) (saved : σ) :
    HResult σ :=
  if 1 ≤ prog then ⟨TermCond.optimal, prog, n, saved, []⟩
  else
    let pn := min 1 (prog + s)
    let res := S.solve (S.fix saved (interp v0 vt pn))
    let n' := n + 1
    if res.1 = TermCond.optimal then
      if 1 ≤ pn then ⟨TermCond.optimal, pn, n', res.2, [(prog, s)]⟩
      else if P.max_eval ≤ n' then
        ⟨TermCond.maxEvaluations, pn, n', res.2, [(prog, s)]⟩
      else
        let r := rest pn (min P.max_step (s * (1 + P.step_accel))) n' res.2
        ⟨r.tc, r.prog, r.n_eval, r.model, (prog, s) :: r.trace⟩
    else
      if s ≤ P.min_step then ⟨TermCond.minStepLength, prog, n', saved, [(prog, s)]⟩
      else if P.max_eval ≤ n' then
        ⟨TermCond.maxEvaluations, prog, n', saved, [(prog, s)]⟩
      else
        let r := rest prog (max P.min_step (s * P.step_cut)) n' saved
        ⟨r.tc, r.prog, r.n_eval, r.model, (prog, s) :: r.trace⟩

def hloop {σ : Type} (P : HParams) (S : Solver σ) (v0 vt : List ℚ)
    (fuel : ℕ) : ℚ → ℚ → ℕ → σ → HResult σ :=
  Nat.rec (motive := fun _ => ℚ → ℚ → ℕ → σ → HResult σ)
    (fun prog _ n saved => ⟨TermCond.maxEvaluations, prog, n, saved, []⟩)
    (fun _ ih => hloopF P S v0 vt ih)
    fuel

/-- Modelled from the spec: the homotopy driver (§4.1 steps 2-5).  It first
solves the model at the unperturbed starting point (`prog = 0`); if that
solve is not optimal it returns `(infeasible, 0, 0)` at once with no
further solve attempts (the initial check is never counted in
`n_evaluations`, per `test_basic_infeasible_init`).  Otherwise it runs the
continuation loop from `prog = 0` with `step = step_init` and
`n_eval = 0`. -/
def homotopy {σ : Type} (P : HParams) (S : Solver σ) (m : σ)
    (v0 vt : List ℚ) : HResult σ :=
  let res := S.solve m
  if res.1 = TermCond.optimal then
    hloop P S v0 vt P.max_eval 0 P.step_init 0 res.2
  else
    ⟨TermCond.infeasible, 0, 0, res.2, []⟩

/-- The model of the tests' quadratic scenario (`test_homotopy.py` fixture):
a fixed variable `x`, a free variable `y`, the equality constraint
`y = x^2`, and an optional extra inequality `y ≤ c`. -/
structure QuadModel where
  x : ℚ
  y : ℚ
  ybound : Option ℚ
deriving DecidableEq

/-- The external solver on `QuadModel`: with `x` fixed, solving the model
sets `y := x * x`; the solve is optimal exactly when the optional
inequality `y ≤ c` holds at that point, and infeasible otherwise. -/
def quadSolve (m : QuadModel) : TermCond × QuadModel :=
  (match m.ybound with
   | none => TermCond.optimal
   | some c => if m.x * m.x ≤ c then TermCond.optimal else TermCond.infeasible,
   ⟨m.x, m.x * m.x, m.ybound⟩)

/-- The `Solver` instance for the quadratic scenario: the single homotopy
variable is `x`. -/
def quadSolver : Solver QuadModel :=
  ⟨fun m vs => ⟨vs.headD m.x, m.y, m.ybound⟩, quadSolve, fun m => [m.x]⟩

/-- The quadratic fixture: `x` fixed at 10, `y` initialised to 1, no extra
inequality. -/
def quad0 : QuadModel := ⟨10, 1, none⟩

/-- The quadratic fixture with the extra inequality `y ≤ c`. -/
def quadB (c : ℚ) : QuadModel := ⟨10, 1, some c⟩

/-- Scenario A (`test_basic`): defaults, `x` from 10 to 20. -/
def runA : HResult QuadModel := homotopy defParams quadSolver quad0 [10] [20]

/-- Overshoot scenario (`test_basic_overshoot`): `step_init = 0.6`. -/
def runOv : HResult QuadModel :=
  homotopy ⟨6/10, 1/2, 3/2, 1, 1/20, 200⟩ quadSolver quad0 [10] [20]

/-- Scenario B (`test_basic_constraint_violation`): defaults, `y ≤ 300`. -/
def runB : HResult QuadModel :=
  homotopy defParams quadSolver (quadB 300) [10] [20]

/-- Scenario C (`test_basic_max_iter`): defaults except `max_eval = 2`. -/
def runC : HResult QuadModel :=
  homotopy ⟨1/10, 1/2, 3/2, 1, 1/20, 2⟩ quadSolver quad0 [10] [20]

/-- Scenario D (`test_basic_infeasible_init`): defaults, `y ≤ 50`. -/
def runD : HResult QuadModel :=
  homotopy defParams quadSolver (quadB 50) [10] [20]

/-- Scenario E (`test_basic_step_accel`): defaults except `step_accel = 0`. -/
def runE : HResult QuadModel :=
  homotopy ⟨1/10, 1/2, 0, 1, 1/20, 200⟩ quadSolver quad0 [10] [20]

/-- Max-step scenario (`test_basic_max_step`): `max_step = step_init = 0.1`. -/
def runMaxStep : HResult QuadModel :=
  homotopy ⟨1/10, 1/2, 3/2, 1/10, 1/20, 200⟩ quadSolver quad0 [10] [20]

/-- Step-cut scenario (`test_basic_step_cut`): `y ≤ 196`, `step_init = 0.1`,
`step_cut = 0.25`, `step_accel = 0`, `min_step = 0.025`. -/
def runCut1 : HResult QuadModel :=
  homotopy ⟨1/10, 1/4, 0, 1, 1/40, 200⟩ quadSolver (quadB 196) [10] [20]

/-- Step-cut scenario (`test_basic_step_cut_2`): as `runCut1` but
`min_step = 0.01`. -/
def runCut2 : HResult QuadModel :=
  homotopy ⟨1/10, 1/4, 0, 1, 1/100, 200⟩ quadSolver (quadB 196) [10] [20]

/-- Idempotence scenario (spec §8): re-run the driver on the model exactly
as scenario A leaves it (`x = 20`, `y = 400`, the optimal end state), with
the same variable and the already-reached target 20. -/
def runIdem : HResult QuadModel :=
  homotopy defParams quadSolver ⟨20, 400, none⟩ [20] [20]

/-- The progress values seen across one driver invocation: the progress at
the entry of every continuation-loop iteration followed by the returned
final progress. -/
def progSeq {σ : Type} (r : HResult σ) : List ℚ :=
  r.trace.map Prod.fst ++ [r.prog]

/-- The loop invariant used for the progress/step bounds: starting the loop
at progress `prog`, the result's progress does not decrease and stays in
`[0, 1]`; the recorded progress sequence starts at `prog` and is
non-decreasing; and every recorded state has progress in `[0, 1]` and a
step size in `[0, max_step]`. -/
def HInv {σ : Type} (P : HParams) (r : HResult σ) (prog : ℚ) : Prop :=
  (prog ≤ r.prog ∧ r.prog ≤ 1)
  ∧ (progSeq r).head? = some prog
  ∧ List.Chain' (fun a b => a ≤ b) (progSeq r)
  ∧ ∀ q ∈ r.trace, 0 ≤ q.1 ∧ q.1 ≤ 1 ∧ 0 ≤ q.2 ∧ q.2 ≤ P.max_step

/-- One-step unfolding of `hloop` at zero fuel. -/
theorem hloop_zero {σ : Type} (P : HParams) (S : Solver σ) (v0 vt : List ℚ)
    (prog s : ℚ) (n : ℕ) (saved : σ) :
    hloop P S v0 vt 0 prog s n saved
      = ⟨TermCond.maxEvaluations, prog, n, saved, []⟩ := rfl

/-- One-step unfolding of `hloop` at positive fuel. -/
theorem hloop_succ {σ : Type} (P : HParams) (S : Solver σ) (v0 vt : List ℚ)
    (fuel : ℕ) :
    hloop P S v0 vt (fuel + 1) = hloopF P S v0 vt (hloop P S v0 vt fuel) := rfl

/-- At progress 1 the interpolation lands exactly on the targets. -/
theorem interp_one (v0 vt : List ℚ) (h : v0.length = vt.length) :
    interp v0 vt 1 = vt := by
  induction v0 generalizing vt with
  | nil => cases vt with
    | nil => rfl
    | cons b bs => simp at h
  | cons a as ih =>
    cases vt with
    | nil => simp at h
    | cons b bs =>
      simp only [interp, List.zipWith_cons_cons]
      refine congrArg₂ List.cons (by ring) ?_
      exact ih bs (by simpa using h)

/-- `n_evaluations` bookkeeping of one loop iteration: the returned counter
is the entry counter plus the number of solve attempts recorded in the
trace. -/
theorem hloopF_count {σ : Type} (P : HParams) (S : Solver σ) (v0 vt : List ℚ)
    (rest : ℚ → ℚ → ℕ → σ → HResult σ)
    (hrest : ∀ prog s n saved, (rest prog s n saved).n_eval
      = n + (rest prog s n saved).trace.length)
    (prog s : ℚ) (n : ℕ) (saved : σ) :
    (hloopF P S v0 vt rest prog s n saved).n_eval
      = n + (hloopF P S v0 vt rest prog s n saved).trace.length := by
  simp only [hloopF]
  split
  · simp
  · split
    · split
      · simp
      · split
        · simp
        · simp [hrest]
          omega
    · split
      · simp
      · split
        · simp
        · simp [hrest]
          omega

/-- `n_evaluations` bookkeeping of the loop: the returned counter is the
entry counter plus the number of recorded solve attempts. -/
theorem hloop_count {σ : Type} (P : HParams) (S : Solver σ) (v0 vt : List ℚ) :
    ∀ (fuel : ℕ) (prog s : ℚ) (n : ℕ) (saved : σ),
      (hloop P S v0 vt fuel prog s n saved).n_eval
        = n + (hloop P S v0 vt fuel prog s n saved).trace.length := by
  intro fuel
  induction fuel with
  | zero => intro prog s n saved; simp [hloop_zero]
  | succ fuel ih =>
    intro prog s n saved
    rw [hloop_succ]
    exact hloopF_count P S v0 vt _ (fun p s' n' m => ih p s' n' m) prog s n saved

/-- The loop performs at most `fuel` further evaluations. -/
theorem hloop_n_le {σ : Type} (P : HParams) (S : Solver σ) (v0 vt : List ℚ) :
    ∀ (fuel : ℕ) (prog s : ℚ) (n : ℕ) (saved : σ),
      (hloop P S v0 vt fuel prog s n saved).n_eval ≤ n + fuel := by
  intro fuel
  induction fuel with
  | zero => intro prog s n saved; simp [hloop_zero]
  | succ fuel ih =>
    intro prog s n saved
    rw [hloop_succ]
    simp only [hloopF]
    split
    · simp
    · split
      · split
        · simp
        · split
          · simp
          · exact le_trans (ih _ _ _ _) (by omega)
      · split
        · simp
        · split
          · simp
          · exact le_trans (ih _ _ _ _) (by omega)

/-- At progress 0 the interpolation is the start values. -/
theorem interp_zero (v0 vt : List ℚ) (h : v0.length = vt.length) :
    interp v0 vt 0 = v0 := by
  induction v0 generalizing vt with
  | nil => rfl
  | cons a as ih =>
    cases vt with
    | nil => simp at h
    | cons b bs =>
      simp only [interp, List.zipWith_cons_cons]
      refine congrArg₂ List.cons (by ring) ?_
      exact ih bs (by simpa using h)

/-- The interpolated value list always has the length of the variable
list. -/
theorem interp_length (v0 vt : List ℚ) (h : v0.length = vt.length) (p : ℚ) :
    (interp v0 vt p).length = v0.length := by
  simp [interp, h]

/-- Prepending a smaller value to a non-decreasing list whose head is
known keeps it non-decreasing. -/
theorem chain_le_cons {l : List ℚ} {a x : ℚ} (hh : l.head? = some a)
    (hxa : x ≤ a) (hc : List.Chain' (fun p q => p ≤ q) l) :
    List.Chain' (fun p q => p ≤ q) (x :: l) := by
  rw [List.chain'_cons']
  refine ⟨?_, hc⟩
  intro b hb
  rw [hh] at hb
  simp only [Option.mem_def, Option.some.injEq] at hb
  subst hb
  exact hxa

/-- `HInv` is preserved when a loop iteration at state `(prog, s)` defers
to a continuation result `r` entered at progress `pn ≥ prog`. -/
theorem HInv_cons {σ : Type} (P : HParams) (tc : TermCond) (n : ℕ) (m : σ)
    (r : HResult σ) (prog s pn : ℚ)
    (h0 : 0 ≤ prog) (h1 : prog ≤ 1) (hs0 : 0 ≤ s) (hs1 : s ≤ P.max_step)
    (hppn : prog ≤ pn) (hr : HInv P r pn) :
    HInv P ⟨tc, r.prog, n, m, (prog, s) :: r.trace⟩ prog := by
  obtain ⟨⟨hA1, hA2⟩, hB, hC, hD⟩ := hr
  have hps : progSeq (⟨tc, r.prog, n, m, (prog, s) :: r.trace⟩ : HResult σ)
      = prog :: progSeq r := by
    simp [progSeq]
  refine ⟨⟨le_trans hppn hA1, hA2⟩, ?_, ?_, ?_⟩
  · rw [hps]; rfl
  · rw [hps]; exact chain_le_cons hB hppn hC
  · intro q hq
    rcases List.mem_cons.mp hq with h | h
    · subst h; exact ⟨h0, h1, hs0, hs1⟩
    · exact hD q h

/-- `HInv` holds for a one-attempt terminal result recorded at `(prog, s)`
with final progress `pn ≥ prog`. -/
theorem HInv_single {σ : Type} (P : HParams) (tc : TermCond) (n : ℕ) (m : σ)
    (prog s pn : ℚ)
    (h0 : 0 ≤ prog) (h1 : prog ≤ 1) (hs0 : 0 ≤ s) (hs1 : s ≤ P.max_step)
    (hppn : prog ≤ pn) (hpn1 : pn ≤ 1) :
    HInv P ⟨tc, pn, n, m, [(prog, s)]⟩ prog := by
  refine ⟨⟨hppn, hpn1⟩, rfl, ?_, ?_⟩
  · show List.Chain' (fun p q => p ≤ q) [prog, pn]
    rw [List.chain'_pair]
    exact hppn
  · intro q hq
    simp only [List.mem_singleton] at hq
    subst hq
    exact ⟨h0, h1, hs0, hs1⟩

/-- `HInv` holds for a zero-attempt terminal result at progress `prog`. -/
theorem HInv_nil {σ : Type} (P : HParams) (tc : TermCond) (n : ℕ) (m : σ)
    (prog : ℚ) (h1 : prog ≤ 1) :
    HInv P ⟨tc, prog, n, m, []⟩ prog := by
  refine ⟨⟨le_refl _, h1⟩, rfl, ?_, ?_⟩
  · show List.Chain' (fun p q => p ≤ q) [prog]
    exact List.chain'_singleton prog
  · intro q hq
    simp at hq

/-- One loop iteration preserves the progress/step invariant `HInv`,
provided the configuration is valid (`step_cut ≤ 1`, `0 ≤ step_accel`,
`0 ≤ min_step ≤ max_step`) and the continuation preserves it. -/
theorem hloopF_inv {σ : Type} (P : HParams) (S : Solver σ) (v0 vt : List ℚ)
    (hc1 : P.step_cut ≤ 1) (ha : 0 ≤ P.step_accel)
    (hm0 : 0 ≤ P.min_step) (hmm : P.min_step ≤ P.max_step)
    (rest : ℚ → ℚ → ℕ → σ → HResult σ)
    (hrest : ∀ prog s n saved, 0 ≤ prog → prog ≤ 1 → 0 ≤ s →
      s ≤ P.max_step → HInv P (rest prog s n saved) prog)
    (prog s : ℚ) (n : ℕ) (saved : σ)
    (h0 : 0 ≤ prog) (h1 : prog ≤ 1) (hs0 : 0 ≤ s) (hs1 : s ≤ P.max_step) :
    HInv P (hloopF P S v0 vt rest prog s n saved) prog := by
  have hpn0 : (0:ℚ) ≤ min 1 (prog + s) := le_min (by norm_num) (by linarith)
  have hpn1 : min 1 (prog + s) ≤ 1 := min_le_left _ _
  have hppn : prog ≤ min 1 (prog + s) := le_min h1 (by linarith)
  simp only [hloopF]
  split
  · exact HInv_nil P _ _ _ prog h1
  · split
    · split
      · exact HInv_single P _ _ _ prog s _ h0 h1 hs0 hs1 hppn hpn1
      · split
        · exact HInv_single P _ _ _ prog s _ h0 h1 hs0 hs1 hppn hpn1
        · refine HInv_cons P _ _ _ _ prog s (min 1 (prog + s))
            h0 h1 hs0 hs1 hppn ?_
          exact hrest _ _ _ _ hpn0 hpn1
            (le_min (le_trans hm0 hmm) (mul_nonneg hs0 (by linarith)))
            (min_le_left _ _)
    · split
      · exact HInv_single P _ _ _ prog s prog h0 h1 hs0 hs1 (le_refl _) h1
      · split
        · exact HInv_single P _ _ _ prog s prog h0 h1 hs0 hs1 (le_refl _) h1
        · refine HInv_cons P _ _ _ _ prog s prog h0 h1 hs0 hs1 (le_refl _) ?_
          exact hrest _ _ _ _ h0 h1
            (le_trans hm0 (le_max_left _ _))
            (max_le hmm (le_trans (mul_le_of_le_one_right hs0 hc1) hs1))

/-- The continuation loop satisfies the progress/step invariant for any
fuel, from any valid entry state. -/
theorem hloop_inv {σ : Type} (P : HParams) (S : Solver σ) (v0 vt : List ℚ)
    (hc1 : P.step_cut ≤ 1) (ha : 0 ≤ P.step_accel)
    (hm0 : 0 ≤ P.min_step) (hmm : P.min_step ≤ P.max_step) :
    ∀ (fuel : ℕ) (prog s : ℚ) (n : ℕ) (saved : σ),
      0 ≤ prog → prog ≤ 1 → 0 ≤ s → s ≤ P.max_step →
      HInv P (hloop P S v0 vt fuel prog s n saved) prog := by
  intro fuel
  induction fuel with
  | zero =>
    intro prog s n saved h0 h1 hs0 hs1
    rw [hloop_zero]
    exact HInv_nil P _ _ _ prog h1
  | succ fuel ih =>
    intro prog s n saved h0 h1 hs0 hs1
    rw [hloop_succ]
    exact hloopF_inv P S v0 vt hc1 ha hm0 hmm _
      (fun p s' n' m hp0 hp1 hq0 hq1 => ih p s' n' m hp0 hp1 hq0 hq1)
      prog s n saved h0 h1 hs0 hs1

/-- One loop iteration: if the solver leaves the homotopy variables at the
values it was handed and the continuation has the optimal-exit property,
then an optimal return carries progress exactly 1 and the homotopy
variables fixed exactly at the targets. -/
theorem hloopF_optimal {σ : Type} (P : HParams) (S : Solver σ)
    (v0 vt : List ℚ)
    (hfix : ∀ m vs, vs.length = (S.vals m).length → S.vals (S.fix m vs) = vs)
    (hsolve : ∀ m, S.vals (S.solve m).2 = S.vals m)
    (hlen : v0.length = vt.length)
    (rest : ℚ → ℚ → ℕ → σ → HResult σ)
    (hrest : ∀ prog s n saved, prog ≤ 1 → S.vals saved = interp v0 vt prog →
      (rest prog s n saved).tc = TermCond.optimal →
      (rest prog s n saved).prog = 1
        ∧ S.vals (rest prog s n saved).model = vt)
    (prog s : ℚ) (n : ℕ) (saved : σ)
    (h1 : prog ≤ 1) (hv : S.vals saved = interp v0 vt prog) :
    (hloopF P S v0 vt rest prog s n saved).tc = TermCond.optimal →
    (hloopF P S v0 vt rest prog s n saved).prog = 1
      ∧ S.vals (hloopF P S v0 vt rest prog s n saved).model = vt := by
  have hfixlen : ∀ p : ℚ, (interp v0 vt p).length = (S.vals saved).length := by
    intro p
    rw [hv, interp_length v0 vt hlen, interp_length v0 vt hlen]
  have hvfix : ∀ p : ℚ,
      S.vals (S.solve (S.fix saved (interp v0 vt p))).2 = interp v0 vt p := by
    intro p
    rw [hsolve, hfix _ _ (hfixlen p)]
  simp only [hloopF]
  split
  · intro _
    have : prog = 1 := le_antisymm h1 (by assumption)
    subst this
    exact ⟨rfl, by rw [hv, interp_one v0 vt hlen]⟩
  · split
    · split
      · intro _
        have hpn : min 1 (prog + s) = 1 :=
          le_antisymm (min_le_left _ _) (by assumption)
        refine ⟨hpn, ?_⟩
        show S.vals (S.solve (S.fix saved (interp v0 vt (min 1 (prog + s))))).2 = vt
        rw [hvfix, hpn, interp_one v0 vt hlen]
      · split
        · intro h; simp at h
        · intro h
          refine hrest _ _ _ _ (min_le_left _ _) (hvfix _) ?_
          simpa using h
    · split
      · intro h; simp at h
      · split
        · intro h; simp at h
        · intro h
          refine hrest _ _ _ _ h1 hv ?_
          simpa using h

/-- The continuation loop: an optimal return carries progress exactly 1
and the homotopy variables fixed exactly at the targets. -/
theorem hloop_optimal {σ : Type} (P : HParams) (S : Solver σ)
    (v0 vt : List ℚ)
    (hfix : ∀ m vs, vs.length = (S.vals m).length → S.vals (S.fix m vs) = vs)
    (hsolve : ∀ m, S.vals (S.solve m).2 = S.vals m)
    (hlen : v0.length = vt.length) :
    ∀ (fuel : ℕ) (prog s : ℚ) (n : ℕ) (saved : σ),
      prog ≤ 1 → S.vals saved = interp v0 vt prog →
      (hloop P S v0 vt fuel prog s n saved).tc = TermCond.optimal →
      (hloop P S v0 vt fuel prog s n saved).prog = 1
        ∧ S.vals (hloop P S v0 vt fuel prog s n saved).model = vt := by
  intro fuel
  induction fuel with
  | zero =>
    intro prog s n saved h1 hv h
    rw [hloop_zero] at h
    simp at h
  | succ fuel ih =>
    intro prog s n saved h1 hv h
    rw [hloop_succ] at h ⊢
    exact hloopF_optimal P S v0 vt hfix hsolve hlen _
      (fun p s' n' m hp1 hm => ih p s' n' m hp1 hm) prog s n saved h1 hv h

/-- The homotopy-variable observer of the quadratic solver returns exactly
the values last fixed. -/
theorem quadSolver_fix_vals (m : QuadModel) (vs : List ℚ)
    (h : vs.length = (quadSolver.vals m).length) :
    quadSolver.vals (quadSolver.fix m vs) = vs := by
  cases vs with
  | nil => simp [quadSolver] at h
  | cons a l =>
    cases l with
    | nil => rfl
    | cons b l' => simp [quadSolver] at h

/-- Solving the quadratic model does not move its fixed variable. -/
theorem quadSolver_solve_vals (m : QuadModel) :
    quadSolver.vals (quadSolver.solve m).2 = quadSolver.vals m := rfl

/-- One loop iteration on the quadratic model returns a model satisfying
the constraint `y = x * x`, since every returned model is either the
snapshot of an earlier solve or the result of the solve just performed. -/
theorem hloopF_quad_y (P : HParams) (v0 vt : List ℚ)
    (rest : ℚ → ℚ → ℕ → QuadModel → HResult QuadModel)
    (hrest : ∀ prog s n saved, saved.y = saved.x * saved.x →
      ((rest prog s n saved).model).y
        = ((rest prog s n saved).model).x * ((rest prog s n saved).model).x)
    (prog s : ℚ) (n : ℕ) (saved : QuadModel)
    (hs : saved.y = saved.x * saved.x) :
    ((hloopF P quadSolver v0 vt rest prog s n saved).model).y
      = ((hloopF P quadSolver v0 vt rest prog s n saved).model).x
        * ((hloopF P quadSolver v0 vt rest prog s n saved).model).x := by
  simp only [hloopF]
  split
  · exact hs
  · split
    · split
      · rfl
      · split
        · rfl
        · exact hrest _ _ _ _ rfl
    · split
      · exact hs
      · split
        · exact hs
        · exact hrest _ _ _ _ hs
/-- The continuation loop on the quadratic model preserves `y = x * x` of
the returned model. -/
theorem hloop_quad_y (P : HParams) (v0 vt : List ℚ) :
    ∀ (fuel : ℕ) (prog s : ℚ) (n : ℕ) (saved : QuadModel),
      saved.y = saved.x * saved.x →
      ((hloop P quadSolver v0 vt fuel prog s n saved).model).y
        = ((hloop P quadSolver v0 vt fuel prog s n saved).model).x
          * ((hloop P quadSolver v0 vt fuel prog s n saved).model).x := by
  intro fuel
  induction fuel with
  | zero =>
    intro prog s n saved hs
    rw [hloop_zero]
    exact hs
  | succ fuel ih =>
    intro prog s n saved hs
    rw [hloop_succ]
    exact hloopF_quad_y P v0 vt _ (fun p s' n' m hm => ih p s' n' m hm)
      prog s n saved hs
/-- Every model returned by the driver on the quadratic solver satisfies
`y = x * x`: the driver only ever hands back post-solve states. -/
theorem homotopy_quad_y (P : HParams) (m : QuadModel) (v0 vt : List ℚ) :
    ((homotopy P quadSolver m v0 vt).model).y
      = ((homotopy P quadSolver m v0 vt).model).x
        * ((homotopy P quadSolver m v0 vt).model).x := by
  simp only [homotopy]
  split
  · exact hloop_quad_y P v0 vt P.max_eval 0 P.step_init 0 _ rfl
  · rfl

/-- C1: on the quadratic model `y = x^2` with `x` fixed at 10, running the
driver with variables `[x]`, targets `[20]` and all options at their
defaults terminates optimal with progress exactly 1 after exactly 4
evaluations, leaving `y` fixed up at 400 (and `x` at its target 20). -/
theorem claim_C1_scenarioA :
    runA.tc = TermCond.optimal ∧ runA.prog = 1 ∧ runA.n_eval = 4
      ∧ runA.model.y = 400 ∧ runA.model.x = 20 := by
  refine ⟨?_, ?_, ?_, ?_, ?_⟩ <;> with_unfolding_all decide

/-- C2: whenever the initial solve at the unperturbed starting point is not
optimal, the driver returns exactly `(infeasible, 0, 0)` regardless of the
configuration, and its continuation loop performs no solve attempt at all
(the trace of loop attempts is empty). -/
theorem claim_C2_infeasible_init (σ : Type) (P : HParams) (S : Solver σ)
    (m : σ) (v0 vt : List ℚ) (h : (S.solve m).1 ≠ TermCond.optimal) :
    (homotopy P S m v0 vt).tc = TermCond.infeasible
      ∧ (homotopy P S m v0 vt).prog = 0
      ∧ (homotopy P S m v0 vt).n_eval = 0
      ∧ (homotopy P S m v0 vt).trace = [] := by
  simp only [homotopy]
  rw [if_neg h]
  exact ⟨rfl, rfl, rfl, rfl⟩

/-- Witness for C2 at scenario D: the quadratic model with `y ≤ 50` is
infeasible at the starting point `x = 10`, and the driver returns
`(infeasible, 0, 0)` with no loop attempts. -/
theorem claim_C2_infeasible_init_witness :
    (quadSolver.solve (quadB 50)).1 ≠ TermCond.optimal
      ∧ (homotopy defParams quadSolver (quadB 50) [10] [20]).tc
          = TermCond.infeasible
      ∧ (homotopy defParams quadSolver (quadB 50) [10] [20]).prog = 0
      ∧ (homotopy defParams quadSolver (quadB 50) [10] [20]).n_eval = 0
      ∧ (homotopy defParams quadSolver (quadB 50) [10] [20]).trace = [] := by
  have h : (quadSolver.solve (quadB 50)).1 ≠ TermCond.optimal := by
    with_unfolding_all decide
  exact ⟨h,
    claim_C2_infeasible_init QuadModel defParams quadSolver (quadB 50)
      [10] [20] h⟩

/-- Counterexample to C3 as stated: scenario D's run has a failing initial
feasibility check, yet it reports `n_evaluations = 0`, not 1. -/
theorem claim_C3_counterexample :
    (quadSolver.solve (quadB 50)).1 ≠ TermCond.optimal
      ∧ runD.tc = TermCond.infeasible
      ∧ runD.n_eval = 0
      ∧ runD.n_eval ≠ 1 := by
  refine ⟨?_, ?_, ?_, ?_⟩ <;> with_unfolding_all decide

/-- C3 (amended): `n_evaluations` counts exactly the solve attempts of the
continuation loop, accepted and rejected alike, and never counts the
initial feasibility check — whether it succeeds or fails; a run whose
initial check fails reports `n_evaluations = 0`. -/
theorem claim_C3_amended (σ : Type) (P : HParams) (S : Solver σ) (m : σ)
    (v0 vt : List ℚ) :
    (homotopy P S m v0 vt).n_eval = (homotopy P S m v0 vt).trace.length
      ∧ ((S.solve m).1 ≠ TermCond.optimal →
          (homotopy P S m v0 vt).n_eval = 0) := by
  constructor
  · simp only [homotopy]
    split
    · simpa using hloop_count P S v0 vt P.max_eval 0 P.step_init 0 _
    · rfl
  · intro h
    simp only [homotopy]
    rw [if_neg h]

/-- Witness for C3 (amended): scenario A's counter equals its number of
loop attempts, and scenario D (failing initial check) reports 0. -/
theorem claim_C3_amended_witness :
    runA.n_eval = runA.trace.length ∧ runD.n_eval = 0 := by
  refine ⟨(claim_C3_amended QuadModel defParams quadSolver quad0
    [10] [20]).1, ?_⟩
  exact (claim_C3_amended QuadModel defParams quadSolver (quadB 50)
    [10] [20]).2 (by with_unfolding_all decide)

/-- C5: scenario B — the quadratic model with the added inequality
`y ≤ 300` under default configuration terminates `minStepLength` at
progress exactly 0.7125 after exactly 12 evaluations, leaving the model at
the last accepted (best feasible) point: `x` at the 0.7125-interpolate,
`y = (137/8)^2 = 18769/64 = 293.265625`, within 0.01 of 293.27. -/
theorem claim_C5_scenarioB :
    runB.tc = TermCond.minStepLength ∧ runB.prog = 7125/10000
      ∧ runB.n_eval = 12
      ∧ runB.model.x = 10 + (7125/10000) * 10
      ∧ runB.model.y = 18769/64
      ∧ 29327/100 - runB.model.y < 1/100
      ∧ runB.model.y < 29327/100 := by
  have hx : runB.model.x = 10 + (7125/10000) * 10 := by
    with_unfolding_all decide
  have hy : runB.model.y = 18769/64 := by
    have h := homotopy_quad_y defParams (quadB 300) [10] [20]
    rw [show runB.model.y = (homotopy defParams quadSolver (quadB 300)
      [10] [20]).model.y from rfl, h,
      show (homotopy defParams quadSolver (quadB 300) [10] [20]).model.x
        = runB.model.x from rfl, hx]
    norm_num
  refine ⟨?_, ?_, ?_, hx, hy, ?_, ?_⟩
  · with_unfolding_all decide
  · with_unfolding_all decide
  · with_unfolding_all decide
  · rw [hy]; norm_num
  · rw [hy]; norm_num

/-- C6: the evaluation budget `max_eval` caps the total number of solve
attempts of any run, accepted and rejected alike; concretely, scenario C
(defaults except `max_eval = 2`) terminates `maxEvaluations` at progress
exactly 0.35 after exactly 2 evaluations with `y = 182.25`. -/
theorem claim_C6_max_eval :
    (∀ (σ : Type) (P : HParams) (S : Solver σ) (m : σ) (v0 vt : List ℚ),
      (homotopy P S m v0 vt).n_eval ≤ P.max_eval)
    ∧ runC.tc = TermCond.maxEvaluations ∧ runC.prog = 7/20
      ∧ runC.n_eval = 2 ∧ runC.model.y = 18225/100 := by
  refine ⟨?_, ?_, ?_, ?_, ?_⟩
  · intro σ P S m v0 vt
    simp only [homotopy]
    split
    · simpa using hloop_n_le P S v0 vt P.max_eval 0 P.step_init 0 _
    · simp
  all_goals with_unfolding_all decide

/-- C8: scenario E — with `step_accel = 0` and default `step_init = 0.1`
the driver goes from progress 0 to 1 in exactly 10 accepted steps of
exactly 0.1 each, returning `(optimal, 1, 10)` with `y = 400`. -/
theorem claim_C8_scenarioE :
    runE.tc = TermCond.optimal ∧ runE.prog = 1 ∧ runE.n_eval = 10
      ∧ runE.model.y = 400
      ∧ runE.trace = [(0, 1/10), (1/10, 1/10), (2/10, 1/10), (3/10, 1/10),
          (4/10, 1/10), (5/10, 1/10), (6/10, 1/10), (7/10, 1/10),
          (8/10, 1/10), (9/10, 1/10)] := by
  refine ⟨?_, ?_, ?_, ?_, ?_⟩ <;> with_unfolding_all decide

/-- C9: on the quadratic model with `y ≤ 196`, `step_init = 0.1`,
`step_cut = 0.25`, `step_accel = 0`, a failed cut that would drop below
`min_step` is clipped to exactly `min_step` and one more attempt is made
there; a failure at `step = min_step` terminates.  With `min_step = 0.025`
the run takes 6 evaluations (the last attempt at step exactly 1/40
= `min_step`); with `min_step = 0.01` it takes 7 (one extra attempt at
step exactly 1/100 = `min_step`); both end at progress 0.4 with
`y = 196`. -/
theorem claim_C9_step_cut :
    (runCut1.tc = TermCond.minStepLength ∧ runCut1.prog = 2/5
      ∧ runCut1.n_eval = 6 ∧ runCut1.model.y = 196
      ∧ runCut1.trace = [(0, 1/10), (1/10, 1/10), (2/10, 1/10),
          (3/10, 1/10), (2/5, 1/10), (2/5, 1/40)])
    ∧ (runCut2.tc = TermCond.minStepLength ∧ runCut2.prog = 2/5
      ∧ runCut2.n_eval = 7 ∧ runCut2.model.y = 196
      ∧ runCut2.trace = [(0, 1/10), (1/10, 1/10), (2/10, 1/10),
          (3/10, 1/10), (2/5, 1/10), (2/5, 1/40), (2/5, 1/100)]) := by
  refine ⟨⟨?_, ?_, ?_, ?_, ?_⟩, ?_, ?_, ?_, ?_, ?_⟩ <;> with_unfolding_all decide

/-- Counterexample to C10 as stated: scenario A leaves the model in the
optimal end state `x = 20, y = 400`; re-running the driver on exactly that
model with the already-reached target 20 does return optimal at progress
1, but with 4 evaluations — not 0 or 1. -/
theorem claim_C10_counterexample :
    runA.tc = TermCond.optimal ∧ runA.model = ⟨20, 400, none⟩
      ∧ runIdem.tc = TermCond.optimal ∧ runIdem.prog = 1
      ∧ ¬(runIdem.n_eval = 0 ∨ runIdem.n_eval = 1) := by
  refine ⟨?_, ?_, ?_, ?_, ?_⟩ <;> with_unfolding_all decide

/-- C10 (amended): re-running the driver on a model already left in an
optimal end state, with the same variable and the already-reached target,
returns `(optimal, 1, n)` where `n` is the evaluation count of the step
schedule for the configuration (4 under defaults — the loop still walks
`prog` from 0 to 1), and leaves all variable values unchanged. -/
theorem claim_C10_amended :
    runIdem.tc = TermCond.optimal ∧ runIdem.prog = 1 ∧ runIdem.n_eval = 4
      ∧ runIdem.model = ⟨20, 400, none⟩ := by
  refine ⟨?_, ?_, ?_, ?_⟩ <;> with_unfolding_all decide

/-- C4: whenever the driver returns `optimal`, the returned progress is
exactly 1 and the homotopy variables are fixed exactly at their targets
(the candidate progress is clamped to exactly 1 before solving, so the
final accepted state lands exactly on the target); concretely, the
overshoot run with `step_init = 0.6` returns `(optimal, 1, 2)` with
`x = 20` and `y = 400`. -/
theorem claim_C4_optimal_exact :
    (∀ (σ : Type) (P : HParams) (S : Solver σ) (m : σ) (v0 vt : List ℚ),
      (∀ m' vs, vs.length = (S.vals m').length →
        S.vals (S.fix m' vs) = vs) →
      (∀ m', S.vals (S.solve m').2 = S.vals m') →
      v0.length = vt.length → S.vals m = v0 →
      (homotopy P S m v0 vt).tc = TermCond.optimal →
      (homotopy P S m v0 vt).prog = 1
        ∧ S.vals (homotopy P S m v0 vt).model = vt)
    ∧ runOv.tc = TermCond.optimal ∧ runOv.prog = 1 ∧ runOv.n_eval = 2
      ∧ runOv.model.x = 20 ∧ runOv.model.y = 400 := by
  constructor
  · intro σ P S m v0 vt hfix hsolve hlen hstart
    simp only [homotopy]
    split
    · intro h
      refine hloop_optimal P S v0 vt hfix hsolve hlen
        P.max_eval 0 P.step_init 0 _ (by norm_num) ?_ h
      rw [hsolve, hstart, interp_zero v0 vt hlen]
    · intro h
      simp at h
  · refine ⟨?_, ?_, ?_, ?_, ?_⟩ <;> with_unfolding_all decide

/-- Witness for C4: the overshoot run reaches progress exactly 1 with its
homotopy variable fixed exactly at the target value 20. -/
theorem claim_C4_optimal_exact_witness :
    runOv.prog = 1 ∧ quadSolver.vals runOv.model = [20] := by
  refine claim_C4_optimal_exact.1 QuadModel ⟨6/10, 1/2, 3/2, 1, 1/20, 200⟩
    quadSolver quad0 [10] [20] quadSolver_fix_vals quadSolver_solve_vals
    rfl rfl ?_
  with_unfolding_all decide

/-- C7: for every model and every valid configuration, the final progress
lies in `[0, 1]`, the progress values across the internal iterations (the
trace entries followed by the final progress) are monotonically
non-decreasing, and every internal state has progress in `[0, 1]` and a
step size never exceeding `max_step`; concretely, with
`max_step = step_init = 0.1` the quadratic scenario takes exactly 10
evaluations. -/
theorem claim_C7_monotone_bounded :
    (∀ (σ : Type) (P : HParams) (S : Solver σ) (m : σ) (v0 vt : List ℚ),
      0 ≤ P.step_init → P.step_init ≤ P.max_step →
      P.step_cut ≤ 1 → 0 ≤ P.step_accel →
      0 ≤ P.min_step → P.min_step ≤ P.max_step →
      (0 ≤ (homotopy P S m v0 vt).prog ∧ (homotopy P S m v0 vt).prog ≤ 1)
      ∧ List.Chain' (fun a b => a ≤ b) (progSeq (homotopy P S m v0 vt))
      ∧ ∀ q ∈ (homotopy P S m v0 vt).trace,
          0 ≤ q.1 ∧ q.1 ≤ 1 ∧ 0 ≤ q.2 ∧ q.2 ≤ P.max_step)
    ∧ runMaxStep.tc = TermCond.optimal ∧ runMaxStep.prog = 1
      ∧ runMaxStep.n_eval = 10 := by
  constructor
  · intro σ P S m v0 vt hi0 hi1 hc1 ha hm0 hmm
    simp only [homotopy]
    split
    · obtain ⟨⟨hA1, hA2⟩, _, hC, hD⟩ := hloop_inv P S v0 vt hc1 ha hm0 hmm
        P.max_eval 0 P.step_init 0 _ (le_refl 0) (by norm_num) hi0 hi1
      exact ⟨⟨hA1, hA2⟩, hC, hD⟩
    · refine ⟨⟨le_refl 0, by norm_num⟩, ?_, ?_⟩
      · show List.Chain' (fun a b => a ≤ b) [0]
        exact List.chain'_singleton 0
      · intro q hq
        simp at hq
  · refine ⟨?_, ?_, ?_⟩ <;> with_unfolding_all decide

/-- Witness for C7 at scenario A with the default configuration. -/
theorem claim_C7_monotone_bounded_witness :
    (0 ≤ runA.prog ∧ runA.prog ≤ 1)
      ∧ List.Chain' (fun a b => a ≤ b) (progSeq runA)
      ∧ ∀ q ∈ runA.trace,
          0 ≤ q.1 ∧ q.1 ≤ 1 ∧ 0 ≤ q.2 ∧ q.2 ≤ defParams.max_step :=
  claim_C7_monotone_bounded.1 QuadModel defParams quadSolver quad0 [10] [20]
    (by norm_num [defParams]) (by norm_num [defParams])
    (by norm_num [defParams]) (by norm_num [defParams])
    (by norm_num [defParams]) (by norm_num [defParams])
